import Mathlib

/-!
Verification development for the loopers document question-answering service.

Python strings are modelled as lists of characters (List Char); byte strings
as lists of Fin 256.  Machine floats appearing in the source (similarity
scores, the 0.1 and 0.3 thresholds) are modelled as exact rationals; the
comparison logic of the source does not depend on rounding except exactly at
a threshold, which the doc comments note where relevant.  Fallible or
possibly diverging code returns Option or Except.
-/

namespace Loopers

/-- Whitespace test matching Python str.isspace and the regex class for
whitespace on str arguments (ASCII whitespace, the C1 separators 28 to 31,
NEL, NBSP and the Unicode space characters). -/
def pyIsSpace (c : Char) : Bool :=
  decide (c.toNat ∈ ([9, 10, 11, 12, 13, 28, 29, 30, 31, 32, 133, 160,
      0x1680, 0x2028, 0x2029, 0x202F, 0x205F, 0x3000] : List Nat))
  || decide (0x2000 ≤ c.toNat ∧ c.toNat ≤ 0x200A)

/-- Python str.strip() with no arguments: drop leading and trailing
whitespace. -/
def pyStrip (l : List Char) : List Char :=
  ((l.dropWhile pyIsSpace).reverse.dropWhile pyIsSpace).reverse

/-- Python s.join(parts). -/
def pyJoin (sep : List Char) (parts : List (List Char)) : List Char :=
  List.intercalate sep parts

/-- Python slice text[a:b] for 0 ≤ a ≤ b (clamping at the length, as Python
slices do). -/
def pySlice (l : List Char) (a b : Nat) : List Char :=
  (l.drop a).take (b - a)

/-! ### SimpleDocumentProcessor.split_into_chunks
(src/simple_document_processor.py, lines 128 to 155)

The Python loop keeps a cursor start, computes end = start + chunk_size,
pulls end back to just after the last sentence-ending character found in
range(end, max(start + chunk_size - 100, start), -1), appends the stripped
slice text[start:end] when it is nonempty, and continues from
end - overlap.  The loop is modelled with explicit fuel because for some
configurations the cursor does not advance and the Python loop runs
forever; None models that divergence.  The loop is modelled as returning
the list of iteration spans (start, min end len); the returned chunks are
the stripped nonempty slices of those spans, exactly as the Python code
appends them. -/

/-- Sentence-ending characters tested by the inner for loop. -/
def sentenceEnders : List Char := ['.', '!', '?']

/-- Model of the inner loop: for i in range(start + chunk_size,
max(start + chunk_size - 100, start), -1): if text[i] in ".!?": the first
index found, scanning downward. -/
def findSentenceBreak (text : List Char) (chunkSize start : Nat) : Option Nat :=
  ((List.range' (max (start + chunkSize - 100) start + 1)
      (start + chunkSize - max (start + chunkSize - 100) start)).reverse).find?
    (fun i => decide (text.getD i ' ' ∈ sentenceEnders))

/-- The end position chosen for the chunk starting at start: start +
chunk_size, pulled back to a sentence boundary when the end lies strictly
inside the text. -/
def chunkEnd (text : List Char) (chunkSize start : Nat) : Nat :=
  let e := start + chunkSize
  if e < text.length then
    match findSentenceBreak text chunkSize start with
    | some i => i + 1
    | none => e
  else e

/-- The while loop of split_into_chunks, recorded as the list of iteration
spans (start, min end length).  Fuel exhaustion returns none and models
divergence of the Python loop. -/
def splitLoop (text : List Char) (chunkSize overlap : Nat) :
    Nat → Nat → Option (List (Nat × Nat))
  | 0, _ => none
  | fuel + 1, start =>
    if start < text.length then
      let e := chunkEnd text chunkSize start
      match splitLoop text chunkSize overlap fuel (e - overlap) with
      | some spans => some ((start, min e text.length) :: spans)
      | none => none
    else some []

/-- The stripped slice of one iteration span; the Python loop appends it to
the chunk list when it is nonempty. -/
def chunkOfSpan (text : List Char) (p : Nat × Nat) : List Char :=
  pyStrip (pySlice text p.1 p.2)

/-- All iteration spans of split_into_chunks, run with enough fuel for every
terminating configuration used in this development. -/
def iterationSpans (text : List Char) (chunkSize overlap : Nat) :
    Option (List (Nat × Nat)) :=
  splitLoop text chunkSize overlap (text.length + 1) 0

/-- The spans of the chunks the Python code actually keeps (those whose
stripped slice is nonempty). -/
def keptSpans (text : List Char) (chunkSize overlap : Nat) :
    Option (List (Nat × Nat)) :=
  (iterationSpans text chunkSize overlap).map
    (fun spans => spans.filter (fun p => !(chunkOfSpan text p).isEmpty))

/-- Model of SimpleDocumentProcessor.split_into_chunks: empty text returns
the empty list at once; otherwise the loop runs and the kept stripped
slices are returned in order.  A none result models a diverging run. -/
def split_into_chunks (text : List Char) (chunkSize overlap : Nat) :
    Option (List (List Char)) :=
  if text.isEmpty then some []
  else
    (iterationSpans text chunkSize overlap).map
      (fun spans =>
        (spans.map (chunkOfSpan text)).filter (fun c => !c.isEmpty))

/-- Divergence of the Python while loop: no amount of fuel completes it. -/
def splitDiverges (text : List Char) (chunkSize overlap : Nat) : Prop :=
  ∀ fuel, splitLoop text chunkSize overlap fuel 0 = none

/-- A span list covers position j when some span contains it. -/
def covers (spans : List (Nat × Nat)) (j : Nat) : Prop :=
  ∃ p ∈ spans, p.1 ≤ j ∧ j < p.2

instance (spans : List (Nat × Nat)) (j : Nat) : Decidable (covers spans j) :=
  inferInstanceAs (Decidable (∃ p ∈ spans, _ ∧ _))

/-- One unfolding step of the loop at positive fuel. -/
theorem splitLoop_succ (text : List Char) (chunkSize overlap fuel start : Nat) :
    splitLoop text chunkSize overlap (fuel + 1) start =
      if start < text.length then
        match splitLoop text chunkSize overlap fuel
            (chunkEnd text chunkSize start - overlap) with
        | some spans =>
          some ((start, min (chunkEnd text chunkSize start) text.length) :: spans)
        | none => none
      else some [] := rfl

/-- The chunk end always lies strictly beyond start + overlap whenever the
overlap is at least 99 below the chunk size, so the cursor strictly
advances. -/
theorem chunkEnd_advance (text : List Char) (chunkSize overlap start : Nat)
    (h : overlap + 98 < chunkSize) :
    start + overlap < chunkEnd text chunkSize start := by
  unfold chunkEnd
  by_cases hlt : start + chunkSize < text.length
  · simp only [hlt, if_true]
    cases hfb : findSentenceBreak text chunkSize start with
    | none => simp only []; omega
    | some i =>
      have hmem := List.mem_of_find?_eq_some hfb
      rw [List.mem_reverse] at hmem
      have := List.mem_range'_1.mp hmem
      simp only []
      omega
  · simp only [hlt, if_false]; omega

/-- With enough fuel relative to the remaining text, the loop terminates
whenever the overlap is at least 99 below the chunk size. -/
theorem splitLoop_total (text : List Char) (chunkSize overlap : Nat)
    (h : overlap + 98 < chunkSize) :
    ∀ fuel start, text.length ≤ start + fuel →
      ∃ spans, splitLoop text chunkSize overlap (fuel + 1) start = some spans := by
  intro fuel
  induction fuel with
  | zero =>
    intro start hs
    have hlt : ¬ start < text.length := by omega
    exact ⟨[], by rw [splitLoop_succ, if_neg hlt]⟩
  | succ n ih =>
    intro start hs
    by_cases hlt : start < text.length
    · have hadv := chunkEnd_advance text chunkSize overlap start h
      have hlen : text.length ≤ (chunkEnd text chunkSize start - overlap) + n := by
        omega
      obtain ⟨spans, hspans⟩ := ih (chunkEnd text chunkSize start - overlap) hlen
      refine ⟨(start, min (chunkEnd text chunkSize start) text.length) :: spans, ?_⟩
      rw [splitLoop_succ, if_pos hlt, hspans]
    · exact ⟨[], by rw [splitLoop_succ, if_neg hlt]⟩

/-- The spans produced by a terminating run cover every position from the
initial cursor to the end of the text. -/
theorem splitLoop_covers (text : List Char) (chunkSize overlap : Nat) :
    ∀ fuel start spans, splitLoop text chunkSize overlap fuel start = some spans →
      ∀ j, start ≤ j → j < text.length → covers spans j := by
  intro fuel
  induction fuel with
  | zero => intro start spans heq; exact absurd heq (by simp [splitLoop])
  | succ n ih =>
    intro start spans heq j hstart hj
    rw [splitLoop_succ] at heq
    by_cases hlt : start < text.length
    · rw [if_pos hlt] at heq
      cases hrec : splitLoop text chunkSize overlap n
          (chunkEnd text chunkSize start - overlap) with
      | none => rw [hrec] at heq; exact absurd heq (by simp)
      | some rest =>
        rw [hrec] at heq
        have hspans : spans =
            (start, min (chunkEnd text chunkSize start) text.length) :: rest := by
          exact (Option.some_inj.mp heq).symm
        subst hspans
        by_cases hjin : j < min (chunkEnd text chunkSize start) text.length
        · exact ⟨(start, min (chunkEnd text chunkSize start) text.length),
            List.mem_cons_self _ _, hstart, hjin⟩
        · have hle : chunkEnd text chunkSize start ≤ text.length := by
            rcases Nat.le_total (chunkEnd text chunkSize start) text.length with hc | hc
            · exact hc
            · rw [min_eq_right hc] at hjin; omega
          rw [min_eq_left hle] at hjin
          have hnext : chunkEnd text chunkSize start - overlap ≤ j := by omega
          obtain ⟨p, hp, h1, h2⟩ := ih _ rest hrec j hnext hj
          exact ⟨p, List.mem_cons_of_mem _ hp, h1, h2⟩
    · rw [if_neg hlt] at heq
      have : spans = [] := (Option.some_inj.mp heq).symm
      omega

/-- A 1201-character text of 1200 spaces followed by one letter: the first
iteration window strips to nothing and is dropped, so its span is covered
by no kept chunk. -/
def ws1200a : List Char := List.replicate 1200 ' ' ++ ['a']

set_option maxRecDepth 100000 in
/-- C1 counterexample: on the nonempty text of 1200 spaces followed by one
letter, split_into_chunks with the default configuration keeps a single
chunk whose span is [800, 1201), so character 0 lies in no kept chunk span:
the union of kept chunk spans has a gap. -/
theorem C1_counterexample :
    ws1200a ≠ [] ∧ keptSpans ws1200a 1000 200 = some [(800, 1201)] ∧
      ¬ covers [(800, 1201)] 0 := by
  refine ⟨by simp [ws1200a], by decide, by decide⟩

/-- C1 (amended): for every nonempty text, the spans of the chunking loop
iterations (dropped whitespace-only windows included) cover every character
of the text under the default configuration; consequently, whenever no
iteration window strips to empty (so no chunk is dropped), the spans of the
returned chunks cover the whole text.  Coverage by the kept chunks alone
can fail only through dropped whitespace-only windows. -/
theorem C1_amended (text : List Char) (hne : text ≠ []) :
    ∃ spans, iterationSpans text 1000 200 = some spans ∧
      (∀ j, j < text.length → covers spans j) ∧
      (∀ kspans, keptSpans text 1000 200 = some kspans → kspans = spans →
        ∀ j, j < text.length → covers kspans j) := by
  obtain ⟨spans, hspans⟩ :=
    splitLoop_total text 1000 200 (by norm_num) text.length 0 (by omega)
  refine ⟨spans, hspans, ?_, ?_⟩
  · intro j hj
    exact splitLoop_covers text 1000 200 (text.length + 1) 0 spans hspans j
      (Nat.zero_le j) hj
  · intro kspans _ hk j hj
    rw [hk]
    exact splitLoop_covers text 1000 200 (text.length + 1) 0 spans hspans j
      (Nat.zero_le j) hj

/-- C1 witness: the amended coverage theorem applied to the concrete text
Hi. whose single iteration span is the whole text. -/
theorem C1_amended_witness :
    ∃ spans, iterationSpans ("Hi.".toList) 1000 200 = some spans ∧
      (∀ j, j < ("Hi.".toList).length → covers spans j) ∧
      (∀ kspans, keptSpans ("Hi.".toList) 1000 200 = some kspans → kspans = spans →
        ∀ j, j < ("Hi.".toList).length → covers kspans j) :=
  C1_amended ("Hi.".toList) (by decide)

/-- C8 counterexample: with chunk_size 1 and overlap 1 on the two-character
text aa the cursor never advances (end = 1, next start = 0), so the Python
while loop runs forever: the chunker is not total for every configuration. -/
theorem C8_counterexample : splitDiverges ['a', 'a'] 1 1 := by
  intro fuel
  induction fuel with
  | zero => rfl
  | succ n ih =>
    rw [splitLoop_succ]
    have h1 : chunkEnd ['a', 'a'] 1 0 = 1 := by decide
    rw [if_pos (by decide : 0 < (['a', 'a'] : List Char).length), h1]
    simp only [Nat.sub_self, ih]

/-- C8 (amended): split_into_chunks terminates and returns a chunk list for
every text whenever overlap + 98 < chunk_size, which covers the default
configuration chunk_size = 1000, overlap = 200; empty input yields the
empty chunk list rather than an error.  Totality fails for other
configurations, for example chunk_size = overlap = 1. -/
theorem C8_amended (text : List Char) (chunkSize overlap : Nat)
    (h : overlap + 98 < chunkSize) :
    (∃ chunks, split_into_chunks text chunkSize overlap = some chunks) ∧
      split_into_chunks [] chunkSize overlap = some [] := by
  refine ⟨?_, rfl⟩
  by_cases he : text.isEmpty
  · exact ⟨[], by simp [split_into_chunks, he]⟩
  · obtain ⟨spans, hspans⟩ :=
      splitLoop_total text chunkSize overlap h text.length 0 (by omega)
    refine ⟨(spans.map (chunkOfSpan text)).filter (fun c => !c.isEmpty), ?_⟩
    simp [split_into_chunks, he, iterationSpans, hspans]

/-- C8 witness: the amended totality theorem applied to the default
configuration on a concrete text. -/
theorem C8_amended_witness :
    (∃ chunks, split_into_chunks ("Hi.".toList) 1000 200 = some chunks) ∧
      split_into_chunks [] 1000 200 = some [] :=
  C8_amended ("Hi.".toList) 1000 200 (by norm_num)

/-! ### DocumentProcessor._create_chunks
(src/document_processor.py, lines 257 to 308)

The sentence-based chunker first applies _clean_text and the external NLTK
sent_tokenize; both happen upstream of the loop the claims are about, so
the model takes the resulting sentence list as input.  The loop grows
current_chunk sentence by sentence while the tentative chunk stays within
self.chunk_size (1000 in the constructor); on overflow it saves the
current chunk when its stripped text is nonempty, and restarts the chunk
from the overlap sentences (the last two when there are more than two,
otherwise all of them) plus the new sentence. -/

/-- One chunk record as built by _create_chunks: chunk_index, the stripped
chunk_text, chunk_size = len(current_chunk) before stripping, and the
sentence list whose length the code stores as sentence_count. -/
structure PyChunk where
  chunkIndex : Nat
  chunkText : List Char
  chunkSize : Nat
  sentences : List (List Char)
deriving Repr, DecidableEq

/-- Loop state of _create_chunks. -/
structure ChunkState where
  chunks : List PyChunk
  current : List Char
  currentSentences : List (List Char)
  nextIndex : Nat
deriving Repr

/-- Python string join: sep.join(parts). -/
def pyJoinSep (sep : List Char) : List (List Char) → List Char
  | [] => []
  | [x] => x
  | x :: y :: rest => x ++ sep ++ pyJoinSep sep (y :: rest)

/-- The overlap sentences kept on chunk restart:
current_chunk_sentences[-2:] if len(current_chunk_sentences) > 2 else
current_chunk_sentences. -/
def overlapOf (l : List (List Char)) : List (List Char) :=
  if 2 < l.length then l.drop (l.length - 2) else l

/-- Saving the current chunk when its stripped text is nonempty, as done on
overflow and for the final chunk. -/
def saveCurrent (st : ChunkState) : ChunkState :=
  if (pyStrip st.current).isEmpty then st
  else
    { st with
      chunks := st.chunks ++
        [⟨st.nextIndex, pyStrip st.current, st.current.length, st.currentSentences⟩],
      nextIndex := st.nextIndex + 1 }

/-- One iteration of the for loop of _create_chunks over a sentence. -/
def addSentence (chunkSize : Nat) (st : ChunkState) (s : List Char) : ChunkState :=
  let test := if st.current.isEmpty then s else st.current ++ ' ' :: s
  if test.length ≤ chunkSize then
    { st with current := test, currentSentences := st.currentSentences ++ [s] }
  else
    let saved := saveCurrent st
    let ov := overlapOf st.currentSentences
    { saved with current := pyJoinSep [' '] (ov ++ [s]), currentSentences := ov ++ [s] }

/-- Model of _create_chunks applied to the sentence list produced upstream:
fold the loop over the sentences, then add the final chunk. -/
def create_chunks (chunkSize : Nat) (sentences : List (List Char)) : List PyChunk :=
  (saveCurrent (sentences.foldl (addSentence chunkSize) ⟨[], [], [], 0⟩)).chunks

/-- A string with at least one non-whitespace character. -/
def hasContent (l : List Char) : Bool := l.any (fun c => !pyIsSpace c)

/-- The overlap always has length min 2 n where n is the sentence count. -/
theorem overlapOf_length (l : List (List Char)) :
    (overlapOf l).length = min 2 l.length := by
  unfold overlapOf
  split <;> simp <;> omega

theorem hasContent_append_right (a b : List Char) (h : hasContent b = true) :
    hasContent (a ++ b) = true := by
  simp only [hasContent, List.any_append, Bool.or_eq_true] at *
  exact Or.inr h

theorem hasContent_cons_space (s : List Char) (h : hasContent s = true) :
    hasContent (' ' :: s) = true := by
  simp only [hasContent, List.any_cons, Bool.or_eq_true] at *
  exact Or.inr h

/-- A string with a non-whitespace character does not strip to empty. -/
theorem pyStrip_ne_nil (l : List Char) (h : hasContent l = true) :
    (pyStrip l).isEmpty = false := by
  have key : ∀ m : List Char, m.any (fun c => !pyIsSpace c) = true →
      (m.dropWhile pyIsSpace).any (fun c => !pyIsSpace c) = true := by
    intro m
    induction m with
    | nil => simp
    | cons c m ih =>
      intro hm
      by_cases hc : pyIsSpace c
      · rw [List.dropWhile_cons_of_pos hc]
        apply ih
        simpa [hc] using hm
      · rwa [List.dropWhile_cons_of_neg hc]
  have h1 := key l h
  have h2 : ((l.dropWhile pyIsSpace).reverse.dropWhile pyIsSpace).any
      (fun c => !pyIsSpace c) = true := by
    apply key
    rwa [List.any_reverse]
  unfold pyStrip
  rcases hx : (l.dropWhile pyIsSpace).reverse.dropWhile pyIsSpace with _ | ⟨c, m⟩
  · rw [hx] at h2; simp at h2
  · simp

/-- Unfolding of the join on a list with at least two elements. -/
theorem pyJoinSep_cons_of_ne_nil (sep x : List Char) (l : List (List Char))
    (h : l ≠ []) : pyJoinSep sep (x :: l) = x ++ sep ++ pyJoinSep sep l := by
  cases l with
  | nil => exact absurd rfl h
  | cons y rest => rfl

/-- The join of a sentence list ending in a contentful sentence has
content. -/
theorem hasContent_pyJoinSep_last (sep : List Char) (parts : List (List Char))
    (s : List Char) (h : hasContent s = true) :
    hasContent (pyJoinSep sep (parts ++ [s])) = true := by
  induction parts with
  | nil => simpa [pyJoinSep]
  | cons p ps ih =>
    rw [List.cons_append, pyJoinSep_cons_of_ne_nil sep p (ps ++ [s])
      (by simp)]
    exact hasContent_append_right _ _ ih

/-- Carryover relation between consecutive chunks: the sentence list of the
later chunk starts with the overlap taken from the earlier chunk. -/
def carryover (c d : PyChunk) : Prop :=
  ∃ rest, d.sentences = overlapOf c.sentences ++ rest

/-- Loop invariant for the sentence chunker: saved chunks are chained by
carryover, an empty sentence accumulator means nothing has been seen, a
nonempty accumulator keeps a contentful current chunk, and the accumulator
extends the overlap of the last saved chunk. -/
def ChunkChainInv (st : ChunkState) : Prop :=
  List.Chain' carryover st.chunks ∧
  (st.currentSentences = [] → st.chunks = [] ∧ st.current = []) ∧
  (st.currentSentences ≠ [] → hasContent st.current = true) ∧
  (∀ c, st.chunks.getLast? = some c →
    ∃ rest, st.currentSentences = overlapOf c.sentences ++ rest)

theorem addSentence_inv (chunkSize : Nat) (st : ChunkState) (s : List Char)
    (hs : hasContent s = true) (hinv : ChunkChainInv st) :
    ChunkChainInv (addSentence chunkSize st s) := by
  obtain ⟨hchain, hempty, hcontent, hlast⟩ := hinv
  unfold addSentence
  by_cases hfit :
      (if st.current.isEmpty then s else st.current ++ ' ' :: s).length ≤ chunkSize
  · rw [if_pos hfit]
    refine ⟨hchain, by simp, ?_, ?_⟩
    · intro _
      by_cases hc : st.current.isEmpty
      · simpa [hc] using hs
      · simp only [hc, if_false]
        exact hasContent_append_right _ _ (hasContent_cons_space s hs)
    · intro c hc
      obtain ⟨rest, hrest⟩ := hlast c hc
      exact ⟨rest ++ [s], by simp [hrest]⟩
  · rw [if_neg hfit]
    by_cases hdrop : (pyStrip st.current).isEmpty
    · have hcs : st.currentSentences = [] := by
        by_contra hne
        rw [pyStrip_ne_nil st.current (hcontent hne)] at hdrop
        exact Bool.false_ne_true hdrop
      obtain ⟨hch, _⟩ := hempty hcs
      refine ⟨?_, by simp, ?_, ?_⟩
      · simpa [saveCurrent, hdrop, hch] using List.chain'_nil
      · intro _
        rw [hcs]
        exact hasContent_pyJoinSep_last [' '] (overlapOf []) s hs
      · intro c hc
        rw [saveCurrent, if_pos hdrop] at hc
        simp only [hch] at hc
        simp at hc
    · refine ⟨?_, by simp, ?_, ?_⟩
      · rw [saveCurrent, if_neg hdrop]
        simp only []
        rw [List.chain'_append]
        refine ⟨hchain, List.chain'_singleton _, ?_⟩
        intro x hx y hy
        simp only [List.head?_cons, Option.mem_def, Option.some_inj] at hy
        obtain ⟨rest, hrest⟩ := hlast x (by simpa using hx)
        exact ⟨rest, by simp [← hy, hrest]⟩
      · intro _
        exact hasContent_pyJoinSep_last [' '] (overlapOf st.currentSentences) s hs
      · intro c hc
        rw [saveCurrent, if_neg hdrop] at hc
        simp only [List.getLast?_concat, Option.some_inj] at hc
        exact ⟨[s], by simp [← hc]⟩

theorem foldl_addSentence_inv (chunkSize : Nat) :
    ∀ sentences : List (List Char), ∀ st : ChunkState,
      ChunkChainInv st → (∀ s ∈ sentences, hasContent s = true) →
      ChunkChainInv (sentences.foldl (addSentence chunkSize) st) := by
  intro sentences
  induction sentences with
  | nil => intro st hst _; exact hst
  | cons s rest ih =>
    intro st hst hall
    rw [List.foldl_cons]
    exact ih _ (addSentence_inv chunkSize st s (hall s (by simp)) hst)
      (fun t ht => hall t (by simp [ht]))

theorem saveCurrent_chain (st : ChunkState) (hinv : ChunkChainInv st) :
    List.Chain' carryover (saveCurrent st).chunks := by
  obtain ⟨hchain, _, _, hlast⟩ := hinv
  unfold saveCurrent
  by_cases hdrop : (pyStrip st.current).isEmpty
  · rwa [if_pos hdrop]
  · rw [if_neg hdrop]
    simp only []
    rw [List.chain'_append]
    refine ⟨hchain, List.chain'_singleton _, ?_⟩
    intro x hx y hy
    simp only [List.head?_cons, Option.mem_def, Option.some_inj] at hy
    obtain ⟨rest, hrest⟩ := hlast x (by simpa using hx)
    exact ⟨rest, by simp [← hy, hrest]⟩

/-- The chunk list returned by create_chunks is chained by carryover as
soon as every sentence has content (as the NLTK sentence tokenizer
guarantees for its output). -/
theorem create_chunks_chain (chunkSize : Nat) (sentences : List (List Char))
    (hs : ∀ s ∈ sentences, hasContent s = true) :
    List.Chain' carryover (create_chunks chunkSize sentences) := by
  apply saveCurrent_chain
  apply foldl_addSentence_inv chunkSize sentences ⟨[], [], [], 0⟩
  · exact ⟨List.chain'_nil, fun _ => ⟨rfl, rfl⟩, by simp [hasContent],
      by simp⟩
  · exact hs

/-- Size invariant transported by the loop: the growing chunk respects the
cap or was just restarted from at most two overlap sentences plus one new
sentence. -/
theorem addSentence_size (chunkSize : Nat) (st : ChunkState) (s : List Char)
    (h1 : ∀ c ∈ st.chunks, c.chunkSize ≤ chunkSize ∨ c.sentences.length ≤ 3)
    (h2 : st.current.length ≤ chunkSize ∨ st.currentSentences.length ≤ 3) :
    (∀ c ∈ (addSentence chunkSize st s).chunks,
        c.chunkSize ≤ chunkSize ∨ c.sentences.length ≤ 3) ∧
      ((addSentence chunkSize st s).current.length ≤ chunkSize ∨
        (addSentence chunkSize st s).currentSentences.length ≤ 3) := by
  unfold addSentence
  by_cases hfit :
      (if st.current.isEmpty then s else st.current ++ ' ' :: s).length ≤ chunkSize
  · rw [if_pos hfit]
    exact ⟨h1, Or.inl hfit⟩
  · rw [if_neg hfit]
    constructor
    · intro c hc
      unfold saveCurrent at hc
      by_cases hdrop : (pyStrip st.current).isEmpty
      · rw [if_pos hdrop] at hc
        exact h1 c hc
      · rw [if_neg hdrop] at hc
        simp only [List.mem_append, List.mem_singleton] at hc
        rcases hc with hc | hc
        · exact h1 c hc
        · rw [hc]
          exact h2
    · right
      simp only [List.length_append, List.length_singleton]
      have := overlapOf_length st.currentSentences
      omega

theorem foldl_addSentence_size (chunkSize : Nat) :
    ∀ sentences : List (List Char), ∀ st : ChunkState,
      (∀ c ∈ st.chunks, c.chunkSize ≤ chunkSize ∨ c.sentences.length ≤ 3) →
      (st.current.length ≤ chunkSize ∨ st.currentSentences.length ≤ 3) →
      (∀ c ∈ (sentences.foldl (addSentence chunkSize) st).chunks,
          c.chunkSize ≤ chunkSize ∨ c.sentences.length ≤ 3) ∧
        ((sentences.foldl (addSentence chunkSize) st).current.length ≤ chunkSize ∨
          (sentences.foldl (addSentence chunkSize) st).currentSentences.length ≤ 3) := by
  intro sentences
  induction sentences with
  | nil => intro st h1 h2; exact ⟨h1, h2⟩
  | cons s rest ih =>
    intro st h1 h2
    rw [List.foldl_cons]
    obtain ⟨h1a, h2a⟩ := addSentence_size chunkSize st s h1 h2
    exact ih _ h1a h2a

set_option maxRecDepth 100000 in
/-- C2 counterexample: three sentences of 600 characters each (every one
within the 1000-character cap) produce a middle chunk of length 1201 made
of two sentences: a chunk can exceed the maximum without being a single
oversized sentence. -/
theorem C2_counterexample :
    (create_chunks 1000
        [List.replicate 600 'x', List.replicate 600 'x', List.replicate 600 'x']).map
        (fun c => (c.chunkSize, c.sentences.length,
          c.sentences.all (fun s => s.length ≤ 1000))) =
      [(600, 1, true), (1201, 2, true), (1802, 3, true)] ∧ (1000 : Nat) < 1201 := by
  exact ⟨by decide, by norm_num⟩

/-- C2 (amended): every chunk built by _create_chunks either has chunk_size
at most the configured maximum, or is the restart content of a new chunk,
namely at most two overlap sentences carried from the previous chunk plus
one new sentence (at most three sentences in total) whose joined length
already exceeds the maximum; the single oversized sentence of the original
claim is the special case with no overlap sentences. -/
theorem C2_amended (chunkSize : Nat) (sentences : List (List Char)) :
    ∀ c ∈ create_chunks chunkSize sentences,
      c.chunkSize ≤ chunkSize ∨ c.sentences.length ≤ 3 := by
  intro c hc
  obtain ⟨h1, h2⟩ := foldl_addSentence_size chunkSize sentences ⟨[], [], [], 0⟩
    (by simp) (Or.inl (by simp))
  unfold create_chunks at hc
  unfold saveCurrent at hc
  by_cases hdrop :
      (pyStrip (sentences.foldl (addSentence chunkSize) ⟨[], [], [], 0⟩).current).isEmpty
  · rw [if_pos hdrop] at hc
    exact h1 c hc
  · rw [if_neg hdrop] at hc
    simp only [List.mem_append, List.mem_singleton] at hc
    rcases hc with hc | hc
    · exact h1 c hc
    · rw [hc]
      exact h2

/-- C2 witness: the amended size bound applied to a concrete chunk of
create_chunks with cap 3. -/
theorem C2_amended_witness :
    (⟨1, "a b c".toList, 5, [['a'], ['b'], ['c']]⟩ : PyChunk).chunkSize ≤ 3 ∨
      (⟨1, "a b c".toList, 5, [['a'], ['b'], ['c']]⟩ : PyChunk).sentences.length ≤ 3 :=
  C2_amended 3 [['a'], ['b'], ['c']] _ (by decide)

/-- C3: for consecutive chunks of _create_chunks (on sentence lists whose
members have non-whitespace content, as the NLTK sentence tokenizer
outputs), the sentence list of chunk i+1 starts with exactly the overlap
sentences taken from the tail of chunk i, and that overlap has min 2 n
sentences where n is the sentence count of chunk i: the shared head is at
most the configured bound of two sentences, or all of chunk i when it has
fewer. -/
theorem C3_overlap_bound (chunkSize : Nat) (sentences : List (List Char))
    (hs : ∀ s ∈ sentences, hasContent s = true) :
    ∀ i ci cj, (create_chunks chunkSize sentences).get? i = some ci →
      (create_chunks chunkSize sentences).get? (i + 1) = some cj →
      ∃ rest, cj.sentences = overlapOf ci.sentences ++ rest ∧
        (overlapOf ci.sentences).length = min 2 ci.sentences.length := by
  intro i ci cj hci hcj
  have hchain := create_chunks_chain chunkSize sentences hs
  rw [List.chain'_iff_get] at hchain
  obtain ⟨hilt, hieq⟩ := List.get?_eq_some.mp hci
  obtain ⟨hjlt, hjeq⟩ := List.get?_eq_some.mp hcj
  have hstep : carryover ((create_chunks chunkSize sentences).get ⟨i, hilt⟩)
      ((create_chunks chunkSize sentences).get ⟨i + 1, hjlt⟩) := by
    apply hchain i
    omega
  rw [hieq, hjeq] at hstep
  obtain ⟨rest, hrest⟩ := hstep
  exact ⟨rest, hrest, overlapOf_length ci.sentences⟩

/-- C3 witness: the overlap bound applied to the two concrete consecutive
chunks produced by create_chunks with cap 3 on three one-letter
sentences. -/
theorem C3_overlap_bound_witness :
    ∃ rest, (⟨1, "a b c".toList, 5, [['a'], ['b'], ['c']]⟩ : PyChunk).sentences =
        overlapOf (⟨0, "a b".toList, 3, [['a'], ['b']]⟩ : PyChunk).sentences ++ rest ∧
      (overlapOf (⟨0, "a b".toList, 3, [['a'], ['b']]⟩ : PyChunk).sentences).length =
        min 2 (⟨0, "a b".toList, 3, [['a'], ['b']]⟩ : PyChunk).sentences.length :=
  C3_overlap_bound 3 [['a'], ['b'], ['c']] (by decide) 0
    ⟨0, "a b".toList, 3, [['a'], ['b']]⟩
    ⟨1, "a b c".toList, 5, [['a'], ['b'], ['c']]⟩ (by decide) (by decide)

/-! ### SimpleEmbeddingManager.find_similar_chunks
(src/simple_embedding_manager.py, lines 115 to 130)

The method computes similarities = [(i, similarity(query, emb)) for i, emb
in enumerate(chunk_embeddings)], sorts the pair list with
list.sort(key=lambda x: x[1], reverse=True), and returns the first top_k
pairs.  The float cosine similarity is abstracted as an arbitrary
rational-valued function simf, since none of the claimed properties depend
on its value.  Python sort is stable, and reverse=True keeps elements with
equal keys in their original order; on a pair list whose first components
strictly increase, that stable descending sort by score coincides with
sorting by the total order simLe below, which breaks score ties by
ascending index. -/

/-- Total order realising the stable descending sort by score of
enumerate output: higher score first, ties by ascending original index. -/
def simLe (a b : Nat × ℚ) : Bool :=
  decide (b.2 < a.2) || (decide (a.2 = b.2) && decide (a.1 ≤ b.1))

/-- Model of find_similar_chunks. -/
def find_similar_chunks {α : Type} (simf : α → α → ℚ) (query : α)
    (chunk_embeddings : List α) (top_k : Nat) : List (Nat × ℚ) :=
  ((chunk_embeddings.enum.map (fun e => (e.1, simf query e.2))).mergeSort
    simLe).take top_k

theorem simLe_trans (a b c : Nat × ℚ) (h1 : simLe a b = true)
    (h2 : simLe b c = true) : simLe a c = true := by
  simp only [simLe, Bool.or_eq_true, Bool.and_eq_true, decide_eq_true_eq] at *
  rcases h1 with h1 | ⟨h1e, h1i⟩ <;> rcases h2 with h2 | ⟨h2e, h2i⟩
  · exact Or.inl (h2.trans h1)
  · exact Or.inl (by rw [← h2e]; exact h1)
  · exact Or.inl (by rw [h1e]; exact h2)
  · exact Or.inr ⟨h1e.trans h2e, h1i.trans h2i⟩

theorem simLe_total (a b : Nat × ℚ) : (simLe a b || simLe b a) = true := by
  simp only [simLe, Bool.or_eq_true, Bool.and_eq_true, decide_eq_true_eq]
  rcases lt_trichotomy a.2 b.2 with h | h | h
  · exact Or.inr (Or.inl h)
  · rcases Nat.le_total a.1 b.1 with hi | hi
    · exact Or.inl (Or.inr ⟨h, hi⟩)
    · exact Or.inr (Or.inr ⟨h.symm, hi⟩)
  · exact Or.inl (Or.inl h)

/-- Every returned pair comes from the enumeration of the input
embeddings. -/
theorem find_similar_from_enum {α : Type} (simf : α → α → ℚ) (query : α)
    (chunk_embeddings : List α) (top_k : Nat) (p : Nat × ℚ)
    (hp : p ∈ find_similar_chunks simf query chunk_embeddings top_k) :
    ∃ e ∈ chunk_embeddings.enum, p = (e.1, simf query e.2) := by
  unfold find_similar_chunks at hp
  have h1 := List.mem_of_mem_take hp
  have h2 := (List.mergeSort_perm
    (chunk_embeddings.enum.map (fun e => (e.1, simf query e.2))) simLe).mem_iff.mp h1
  obtain ⟨e, he, heq⟩ := List.mem_map.mp h2
  exact ⟨e, he, heq.symm⟩

/-- Every returned index addresses a real input embedding whose similarity
is the returned score. -/
theorem find_similar_valid {α : Type} (simf : α → α → ℚ) (query : α)
    (chunk_embeddings : List α) (top_k : Nat) (p : Nat × ℚ)
    (hp : p ∈ find_similar_chunks simf query chunk_embeddings top_k) :
    p.1 < chunk_embeddings.length ∧
      ∃ c, chunk_embeddings[p.1]? = some c ∧ p.2 = simf query c := by
  obtain ⟨e, he, heq⟩ := find_similar_from_enum simf query chunk_embeddings top_k p hp
  have hget := List.mem_enum_iff_getElem?.mp he
  subst heq
  exact ⟨List.fst_lt_of_mem_enum he, e.2, hget, rfl⟩

/-- The first components of the returned pairs are distinct. -/
theorem find_similar_fst_nodup {α : Type} (simf : α → α → ℚ) (query : α)
    (chunk_embeddings : List α) (top_k : Nat) :
    ((find_similar_chunks simf query chunk_embeddings top_k).map Prod.fst).Nodup := by
  have hfst : (chunk_embeddings.enum.map
      (fun e => (e.1, simf query e.2))).map Prod.fst = List.range chunk_embeddings.length := by
    rw [List.map_map]
    exact List.enum_map_fst chunk_embeddings
  have hperm : List.Perm
      (((chunk_embeddings.enum.map (fun e => (e.1, simf query e.2))).mergeSort
        simLe).map Prod.fst) (List.range chunk_embeddings.length) := by
    rw [← hfst]
    exact (List.mergeSort_perm _ simLe).map Prod.fst
  have hnd : (((chunk_embeddings.enum.map (fun e => (e.1, simf query e.2))).mergeSort
      simLe).map Prod.fst).Nodup := hperm.symm.nodup (List.nodup_range _)
  unfold find_similar_chunks
  rw [List.map_take]
  exact List.Nodup.sublist (List.take_sublist _ _) hnd

/-- The returned pairs are strictly sorted: scores non-increasing, score
ties broken by ascending original index. -/
theorem find_similar_sorted {α : Type} (simf : α → α → ℚ) (query : α)
    (chunk_embeddings : List α) (top_k : Nat) :
    List.Pairwise (fun a b : Nat × ℚ => b.2 < a.2 ∨ (a.2 = b.2 ∧ a.1 < b.1))
      (find_similar_chunks simf query chunk_embeddings top_k) := by
  have hs := List.sorted_mergeSort simLe_trans simLe_total
    (chunk_embeddings.enum.map (fun e => (e.1, simf query e.2)))
  have hnd0 := find_similar_fst_nodup simf query chunk_embeddings
    (chunk_embeddings.enum.map (fun e => (e.1, simf query e.2))).length
  have hall : find_similar_chunks simf query chunk_embeddings
      (chunk_embeddings.enum.map (fun e => (e.1, simf query e.2))).length =
      (chunk_embeddings.enum.map (fun e => (e.1, simf query e.2))).mergeSort simLe := by
    unfold find_similar_chunks
    apply List.take_of_length_le
    rw [List.length_mergeSort]
  rw [hall] at hnd0
  have hnd : List.Pairwise (fun a b : Nat × ℚ => a.1 ≠ b.1)
      ((chunk_embeddings.enum.map (fun e => (e.1, simf query e.2))).mergeSort simLe) :=
    List.pairwise_map.mp hnd0
  have hcomb := hs.and hnd
  have himp : List.Pairwise (fun a b : Nat × ℚ => b.2 < a.2 ∨ (a.2 = b.2 ∧ a.1 < b.1))
      ((chunk_embeddings.enum.map (fun e => (e.1, simf query e.2))).mergeSort simLe) := by
    apply hcomb.imp
    intro a b hab
    obtain ⟨hle, hne⟩ := hab
    simp only [simLe, Bool.or_eq_true, Bool.and_eq_true, decide_eq_true_eq] at hle
    rcases hle with h | ⟨he, hi⟩
    · exact Or.inl h
    · exact Or.inr ⟨he, lt_of_le_of_ne hi hne⟩
  exact himp.sublist (List.take_sublist _ _)

/-- C5: find_similar_chunks returns at most top_k pairs, strictly sorted by
non-increasing similarity score with score ties broken by ascending
original chunk index, every returned index is a valid index of the input
embedding list carrying the similarity of that very embedding, and no
index appears twice. -/
theorem C5_find_similar {α : Type} (simf : α → α → ℚ) (query : α)
    (chunk_embeddings : List α) (top_k : Nat) :
    (find_similar_chunks simf query chunk_embeddings top_k).length ≤ top_k ∧
      List.Pairwise (fun a b : Nat × ℚ => b.2 < a.2 ∨ (a.2 = b.2 ∧ a.1 < b.1))
        (find_similar_chunks simf query chunk_embeddings top_k) ∧
      (∀ p ∈ find_similar_chunks simf query chunk_embeddings top_k,
        p.1 < chunk_embeddings.length ∧
          ∃ c, chunk_embeddings[p.1]? = some c ∧ p.2 = simf query c) ∧
      ((find_similar_chunks simf query chunk_embeddings top_k).map Prod.fst).Nodup := by
  refine ⟨?_, find_similar_sorted simf query chunk_embeddings top_k,
    fun p hp => find_similar_valid simf query chunk_embeddings top_k p hp,
    find_similar_fst_nodup simf query chunk_embeddings top_k⟩
  unfold find_similar_chunks
  exact List.length_take_le _ _

/-- C5 witness: the retrieval contract evaluated on two concrete
one-dimensional embeddings with product similarity. -/
theorem C5_find_similar_witness :
    (find_similar_chunks (fun x y : ℚ => x * y) 1 [(2 : ℚ), 3] 2).length ≤ 2 ∧
      List.Pairwise (fun a b : Nat × ℚ => b.2 < a.2 ∨ (a.2 = b.2 ∧ a.1 < b.1))
        (find_similar_chunks (fun x y : ℚ => x * y) 1 [(2 : ℚ), 3] 2) ∧
      (∀ p ∈ find_similar_chunks (fun x y : ℚ => x * y) 1 [(2 : ℚ), 3] 2,
        p.1 < ([(2 : ℚ), 3] : List ℚ).length ∧
          ∃ c, ([(2 : ℚ), 3] : List ℚ)[p.1]? = some c ∧ p.2 = 1 * c) ∧
      ((find_similar_chunks (fun x y : ℚ => x * y) 1 [(2 : ℚ), 3] 2).map
        Prod.fst).Nodup :=
  C5_find_similar (fun x y : ℚ => x * y) 1 [(2 : ℚ), 3] 2

/-! ### Context selection per question in hackrx_run
(src/main_hackrx.py, lines 191 to 206)

For each question the endpoint retrieves the top 3 chunks, keeps those
scoring strictly above the 0.1 relevance threshold (indexing
document_chunks at the returned positions; an invalid position would raise
IndexError, modelled by none), and falls back to the first two chunks when
nothing passes the threshold and the document has chunks at all.  The
float threshold 0.1 is modelled as the exact rational 1/10. -/

/-- The list comprehension building relevant_chunks. -/
def relevant_chunks_for {α : Type} (document_chunks : List α)
    (similar : List (Nat × ℚ)) : Option (List α) :=
  (similar.filter (fun p => decide ((1 : ℚ)/10 < p.2))).mapM
    (fun p => document_chunks[p.1]?)

/-- Model of the relevant-chunk selection with its first-two-chunks
fallback. -/
def context_for {α : Type} (document_chunks : List α)
    (similar : List (Nat × ℚ)) : Option (List α) :=
  (relevant_chunks_for document_chunks similar).map
    (fun rel =>
      if rel.isEmpty && !document_chunks.isEmpty then document_chunks.take 2
      else rel)

/-- The full context computation of one question: retrieve the top 3
chunks for the question embedding, then select the context. -/
def question_context {α β : Type} (simf : β → β → ℚ) (question_embedding : β)
    (document_chunks : List α) (chunk_embeddings : List β) : Option (List α) :=
  context_for document_chunks
    (find_similar_chunks simf question_embedding chunk_embeddings 3)

/-- Option mapM succeeds and returns the pointwise extraction when every
call succeeds. -/
theorem mapM_option_eq_map {α : Type} [Inhabited α] (f : Nat × ℚ → Option α) :
    ∀ l : List (Nat × ℚ), (∀ p ∈ l, (f p).isSome) →
      l.mapM f = some (l.map (fun p => (f p).getD default)) := by
  intro l
  induction l with
  | nil => intro _; rfl
  | cons a l ih =>
    intro hall
    rw [List.mapM_cons, ih (fun p hp => hall p (by simp [hp]))]
    obtain ⟨b, hb⟩ := Option.isSome_iff_exists.mp (hall a (by simp))
    simp [hb]

/-- C6: when none of the top 3 retrieved chunks scores strictly above 1/10,
the context handed to answer synthesis is the first two document chunks
(all of them when the document has fewer); otherwise it is exactly the
retrieved chunks scoring above the threshold, in retrieval order. -/
theorem C6_context {α β : Type} [Inhabited α] (simf : β → β → ℚ)
    (question_embedding : β) (document_chunks : List α)
    (chunk_embeddings : List β)
    (hlen : chunk_embeddings.length = document_chunks.length)
    (hne : document_chunks ≠ []) :
    ((∀ p ∈ find_similar_chunks simf question_embedding chunk_embeddings 3,
        p.2 ≤ 1/10) →
      question_context simf question_embedding document_chunks chunk_embeddings =
        some (document_chunks.take 2)) ∧
    ((∃ p ∈ find_similar_chunks simf question_embedding chunk_embeddings 3,
        (1 : ℚ)/10 < p.2) →
      question_context simf question_embedding document_chunks chunk_embeddings =
        some (((find_similar_chunks simf question_embedding chunk_embeddings 3).filter
            (fun p => decide ((1 : ℚ)/10 < p.2))).map
          (fun p => document_chunks.getD p.1 default)) ∧
        ((find_similar_chunks simf question_embedding chunk_embeddings 3).filter
          (fun p => decide ((1 : ℚ)/10 < p.2))) ≠ []) := by
  have hvalid : ∀ p ∈ (find_similar_chunks simf question_embedding
      chunk_embeddings 3).filter (fun p => decide ((1 : ℚ)/10 < p.2)),
      (document_chunks[p.1]?).isSome := by
    intro p hp
    have hmem := (List.mem_filter.mp hp).1
    have hlt := (find_similar_valid simf question_embedding chunk_embeddings 3
      p hmem).1
    rw [List.getElem?_eq_getElem (by omega)]
    rfl
  have hrel := mapM_option_eq_map (fun p => document_chunks[p.1]?)
    ((find_similar_chunks simf question_embedding chunk_embeddings 3).filter
      (fun p => decide ((1 : ℚ)/10 < p.2))) hvalid
  constructor
  · intro hbelow
    have hfil : (find_similar_chunks simf question_embedding
        chunk_embeddings 3).filter (fun p => decide ((1 : ℚ)/10 < p.2)) = [] := by
      rw [List.filter_eq_nil]
      intro p hp
      simp only [decide_eq_true_eq, not_lt]
      exact hbelow p hp
    unfold question_context context_for relevant_chunks_for
    rw [hfil, List.mapM_nil]
    simp [List.isEmpty_eq_false.mpr hne]
  · intro hab
    obtain ⟨p, hp, hpgt⟩ := hab
    have hfilne : (find_similar_chunks simf question_embedding
        chunk_embeddings 3).filter (fun p => decide ((1 : ℚ)/10 < p.2)) ≠ [] := by
      intro hnil
      have : p ∈ (find_similar_chunks simf question_embedding
          chunk_embeddings 3).filter (fun p => decide ((1 : ℚ)/10 < p.2)) :=
        List.mem_filter.mpr ⟨hp, by simpa using hpgt⟩
      rw [hnil] at this
      simp at this
    refine ⟨?_, hfilne⟩
    unfold question_context context_for relevant_chunks_for
    rw [hrel]
    have hmapne : ((find_similar_chunks simf question_embedding
        chunk_embeddings 3).filter (fun p => decide ((1 : ℚ)/10 < p.2))).map
        (fun p => (document_chunks[p.1]?).getD default) ≠ [] := by
      simpa using hfilne
    rw [Option.map_some']
    rw [List.isEmpty_eq_false.mpr hmapne]
    simp only [Bool.false_and, Bool.false_eq_true, if_false]
    congr 1
    apply List.map_congr_left
    intro p _
    rw [List.getD_eq_getElem?_getD]

/-- C6 witness: the context policy evaluated on a concrete two-chunk
document; with product similarity and query 1 both scores are above the
threshold. -/
theorem C6_context_witness :
    ((∀ p ∈ find_similar_chunks (fun x y : ℚ => x * y) 1 [(2 : ℚ), 3] 3,
        p.2 ≤ 1/10) →
      question_context (fun x y : ℚ => x * y) 1 [(10 : ℚ), 20] [(2 : ℚ), 3] =
        some (([(10 : ℚ), 20] : List ℚ).take 2)) ∧
    ((∃ p ∈ find_similar_chunks (fun x y : ℚ => x * y) 1 [(2 : ℚ), 3] 3,
        (1 : ℚ)/10 < p.2) →
      question_context (fun x y : ℚ => x * y) 1 [(10 : ℚ), 20] [(2 : ℚ), 3] =
        some (((find_similar_chunks (fun x y : ℚ => x * y) 1 [(2 : ℚ), 3] 3).filter
            (fun p => decide ((1 : ℚ)/10 < p.2))).map
          (fun p => ([(10 : ℚ), 20] : List ℚ).getD p.1 default)) ∧
        ((find_similar_chunks (fun x y : ℚ => x * y) 1 [(2 : ℚ), 3] 3).filter
          (fun p => decide ((1 : ℚ)/10 < p.2))) ≠ []) :=
  C6_context (fun x y : ℚ => x * y) 1 [(10 : ℚ), 20] [(2 : ℚ), 3] (by decide)
    (by decide)

/-! ### The question loop of hackrx_run
(src/main_hackrx.py, lines 184 to 245)

The endpoint iterates over the questions with enumerate; for each question
the body (embedding the question, retrieval, context selection, Gemini
answer synthesis, reading the answer dict fields) either yields an answer
record or raises, and the except-branch appends an apology answer with
confidence low and empty evidence instead.  The per-question body is
abstracted as a function proc from position and question to an Except
value, since it is dominated by external service calls.  The final
response reports questions_processed = len(answers). -/

/-- The fields of the per-question synthesis result used by the loop. -/
structure GeminiAnswer where
  answer : String
  confidence : String
  supporting_evidence : List String
deriving Repr, DecidableEq

/-- One element of the answers list of the response. -/
structure HackRxQuestionResponse where
  question : String
  answer : String
  confidence : String
  supporting_evidence : List String
deriving Repr, DecidableEq

/-- The response envelope fields relevant to the claim. -/
structure HackRxResponse where
  document_url : String
  questions_processed : Nat
  answers : List HackRxQuestionResponse
deriving Repr, DecidableEq

/-- The apology text built in the except branch of the loop. -/
def errorAnswerText (e : String) : String :=
  "I apologize, but I encountered an error while processing this question: " ++ e

/-- One iteration of the question loop: a successful body yields the
synthesised answer record, a raised error yields the apology record with
confidence low. -/
def answerOne (proc : Nat → String → Except String GeminiAnswer)
    (i : Nat) (q : String) : HackRxQuestionResponse :=
  match proc i q with
  | .ok r => ⟨q, r.answer, r.confidence, r.supporting_evidence⟩
  | .error e => ⟨q, errorAnswerText e, "low", []⟩

/-- The answers list accumulated by the loop over the enumerated
questions. -/
def processQuestions (proc : Nat → String → Except String GeminiAnswer)
    (questions : List String) : List HackRxQuestionResponse :=
  questions.enum.map (fun p => answerOne proc p.1 p.2)

/-- The response returned by hackrx_run after the loop. -/
def hackrxResponse (url : String) (proc : Nat → String → Except String GeminiAnswer)
    (questions : List String) : HackRxResponse :=
  ⟨url, (processQuestions proc questions).length, processQuestions proc questions⟩

/-- C4: the batch endpoint produces exactly one answer per question, in
question order; a question whose processing raises still gets an answer
with the apology text, confidence low and empty evidence, and the
remaining questions are unaffected; questions_processed reports the number
of questions. -/
theorem C4_one_answer_per_question (url : String)
    (proc : Nat → String → Except String GeminiAnswer) (questions : List String) :
    (processQuestions proc questions).length = questions.length ∧
      (hackrxResponse url proc questions).questions_processed = questions.length ∧
      ∀ i q, questions[i]? = some q →
        ∃ a, (processQuestions proc questions)[i]? = some a ∧ a.question = q ∧
          (∀ e, proc i q = .error e →
            a = ⟨q, errorAnswerText e, "low", []⟩) ∧
          (∀ r, proc i q = .ok r →
            a = ⟨q, r.answer, r.confidence, r.supporting_evidence⟩) := by
  have hlen : (processQuestions proc questions).length = questions.length := by
    unfold processQuestions
    rw [List.length_map, List.enum_length]
  refine ⟨hlen, hlen, ?_⟩
  intro i q hq
  have hienum : questions.enum[i]? = some (i, q) := by
    rw [List.getElem?_enum, hq, Option.map_some']
  have hget : (processQuestions proc questions)[i]? = some (answerOne proc i q) := by
    unfold processQuestions
    rw [List.getElem?_map, hienum]
    rfl
  refine ⟨answerOne proc i q, hget, ?_, ?_, ?_⟩
  · unfold answerOne
    cases proc i q <;> rfl
  · intro e he
    unfold answerOne
    rw [he]
  · intro r hr
    unfold answerOne
    rw [hr]

/-- C4 witness: a two-question batch where the first question succeeds and
the second raises; both receive exactly one answer in order. -/
theorem C4_one_answer_per_question_witness :
    (processQuestions
        (fun i _ => if i = 0 then .ok ⟨"yes", "high", ["ev"]⟩ else .error "boom")
        ["q0", "q1"]).length = (["q0", "q1"] : List String).length ∧
      (hackrxResponse "u"
        (fun i _ => if i = 0 then .ok ⟨"yes", "high", ["ev"]⟩ else .error "boom")
        ["q0", "q1"]).questions_processed = (["q0", "q1"] : List String).length ∧
      ∀ i q, (["q0", "q1"] : List String)[i]? = some q →
        ∃ a, (processQuestions
            (fun i _ => if i = 0 then .ok ⟨"yes", "high", ["ev"]⟩ else .error "boom")
            ["q0", "q1"])[i]? = some a ∧ a.question = q ∧
          (∀ e, (fun i (_ : String) =>
              if i = 0 then (.ok ⟨"yes", "high", ["ev"]⟩ : Except String GeminiAnswer)
              else .error "boom") i q = .error e →
            a = ⟨q, errorAnswerText e, "low", []⟩) ∧
          (∀ r, (fun i (_ : String) =>
              if i = 0 then (.ok ⟨"yes", "high", ["ev"]⟩ : Except String GeminiAnswer)
              else .error "boom") i q = .ok r →
            a = ⟨q, r.answer, r.confidence, r.supporting_evidence⟩) :=
  C4_one_answer_per_question "u"
    (fun i _ => if i = 0 then .ok ⟨"yes", "high", ["ev"]⟩ else .error "boom")
    ["q0", "q1"]

/-! ### parse_llm_response (src/main.py, lines 169 to 210)

The function strips the response text, locates the candidate JSON text
from the first opening brace to the last closing brace, parses it with
json.loads, and checks the required fields answer, supporting_clauses,
explanation and confidence in that order; every failure is raised as
ValueError.  The model implements the JSON grammar accepted by json.loads
with its default settings (including NaN and the infinities) over lists of
characters; one restriction is noted inline: escaped lone surrogates,
which Python would keep inside its strings and which Lean characters
cannot represent, are rejected.  Error messages are modelled by the small
ParseErr type since no claim depends on their text. -/

/-- JSON values as produced by json.loads. -/
inductive PyJson where
  | null : PyJson
  | bool (b : Bool) : PyJson
  | num (q : ℚ) : PyJson
  | inf (neg : Bool) : PyJson
  | nan : PyJson
  | str (s : List Char) : PyJson
  | arr (xs : List PyJson) : PyJson
  | obj (kvs : List (List Char × PyJson)) : PyJson

/-- JSON whitespace accepted between tokens. -/
def isJsonWS (c : Char) : Bool :=
  c = ' ' || c = '\t' || c = '\n' || c = '\r'

def skipWS (s : List Char) : List Char := s.dropWhile isJsonWS

def isDigitC (c : Char) : Bool := decide (48 ≤ c.toNat ∧ c.toNat ≤ 57)

def digitsToNat (l : List Char) : Nat :=
  l.foldl (fun n c => 10 * n + (c.toNat - 48)) 0

def hexVal (c : Char) : Option Nat :=
  if 48 ≤ c.toNat ∧ c.toNat ≤ 57 then some (c.toNat - 48)
  else if 97 ≤ c.toNat ∧ c.toNat ≤ 102 then some (c.toNat - 87)
  else if 65 ≤ c.toNat ∧ c.toNat ≤ 70 then some (c.toNat - 55)
  else none

def hex4 (s : List Char) : Option (Nat × List Char) :=
  match s with
  | a :: b :: c :: d :: rest =>
    match hexVal a, hexVal b, hexVal c, hexVal d with
    | some x, some y, some z, some w =>
      some (((x * 16 + y) * 16 + z) * 16 + w, rest)
    | _, _, _, _ => none
  | _ => none

/-- Single-character string escapes of JSON. -/
def escChar (e : Char) : Option Char :=
  if e = '"' then some '"'
  else if e = '\\' then some '\\'
  else if e = '/' then some '/'
  else if e = 'b' then some '\x08'
  else if e = 'f' then some '\x0c'
  else if e = 'n' then some '\n'
  else if e = 'r' then some '\r'
  else if e = 't' then some '\t'
  else none

def consCont (c : Char) :
    Option (List Char × List Char) → Option (List Char × List Char)
  | some (content, rest) => some (c :: content, rest)
  | none => none

/-- String body scanner, positioned after the opening quote; returns the
decoded content and the input following the closing quote.  Unescaped
control characters are rejected (strict mode); surrogate escape pairs are
combined; escaped lone surrogates are rejected (Python would keep them; no
input of this development contains any). -/
def parse_string_aux : Nat → List Char → Option (List Char × List Char)
  | 0, _ => none
  | _ + 1, [] => none
  | fuel + 1, c :: rest =>
    if c = '"' then some ([], rest)
    else if c = '\\' then
      match rest with
      | [] => none
      | e :: rest2 =>
        if e = 'u' then
          match hex4 rest2 with
          | some (code, rest3) =>
            if 0xD800 ≤ code ∧ code ≤ 0xDBFF then
              match rest3 with
              | '\\' :: 'u' :: rest4 =>
                match hex4 rest4 with
                | some (code2, rest5) =>
                  if 0xDC00 ≤ code2 ∧ code2 ≤ 0xDFFF then
                    consCont
                      (Char.ofNat
                        (0x10000 + (code - 0xD800) * 0x400 + (code2 - 0xDC00)))
                      (parse_string_aux fuel rest5)
                  else none
                | none => none
              | _ => none
            else if 0xDC00 ≤ code ∧ code ≤ 0xDFFF then none
            else consCont (Char.ofNat code) (parse_string_aux fuel rest3)
          | none => none
        else
          match escChar e with
          | some ch => consCont ch (parse_string_aux fuel rest2)
          | none => none
    else if c.toNat < 0x20 then none
    else consCont c (parse_string_aux fuel rest)

def parse_jstring (s : List Char) : Option (List Char × List Char) :=
  parse_string_aux (s.length + 1) s

/-- JSON number grammar: optional minus, integer part without leading
zeros, optional fraction, optional exponent; the exact rational value is
returned. -/
def parse_number (s : List Char) : Option (ℚ × List Char) :=
  let negs1 : Bool × List Char :=
    match s with
    | '-' :: r => (true, r)
    | _ => (false, s)
  let neg := negs1.1
  let s1 := negs1.2
  let intDigits := s1.takeWhile isDigitC
  let s2 := s1.dropWhile isDigitC
  if intDigits.isEmpty then none
  else if 1 < intDigits.length ∧ intDigits.headD 'x' = '0' then none
  else
    let fracPart : List Char × List Char × Bool :=
      match s2 with
      | '.' :: r =>
        (r.takeWhile isDigitC, r.dropWhile isDigitC, !(r.takeWhile isDigitC).isEmpty)
      | _ => ([], s2, true)
    let fracDigits := fracPart.1
    let s3 := fracPart.2.1
    if !fracPart.2.2 then none
    else
      let expPart : Bool × List Char × List Char × Bool :=
        match s3 with
        | e :: r =>
          if e = 'e' ∨ e = 'E' then
            match r with
            | '+' :: r2 =>
              (false, r2.takeWhile isDigitC, r2.dropWhile isDigitC,
                !(r2.takeWhile isDigitC).isEmpty)
            | '-' :: r2 =>
              (true, r2.takeWhile isDigitC, r2.dropWhile isDigitC,
                !(r2.takeWhile isDigitC).isEmpty)
            | _ =>
              (false, r.takeWhile isDigitC, r.dropWhile isDigitC,
                !(r.takeWhile isDigitC).isEmpty)
          else (false, [], s3, true)
        | [] => (false, [], s3, true)
      if !expPart.2.2.2 then none
      else
        let mant : ℚ :=
          (digitsToNat (intDigits ++ fracDigits) : ℚ) / (10 : ℚ) ^ fracDigits.length
        let ex : ℤ :=
          if expPart.1 then -(digitsToNat expPart.2.1 : ℤ)
          else (digitsToNat expPart.2.1 : ℤ)
        some ((if neg then -mant else mant) * (10 : ℚ) ^ ex, expPart.2.2.1)

mutual

/-- One JSON value, with surrounding whitespace skipped on the left; fuel
bounds the recursion depth and exceeds the input length at the top
entry. -/
def parse_value : Nat → List Char → Option (PyJson × List Char)
  | 0, _ => none
  | fuel + 1, s =>
    match skipWS s with
    | [] => none
    | c :: rest =>
      if c = 'n' then
        if rest.take 3 = ['u', 'l', 'l'] then some (.null, rest.drop 3) else none
      else if c = 't' then
        if rest.take 3 = ['r', 'u', 'e'] then some (.bool true, rest.drop 3)
        else none
      else if c = 'f' then
        if rest.take 4 = ['a', 'l', 's', 'e'] then some (.bool false, rest.drop 4)
        else none
      else if c = 'N' then
        if rest.take 2 = ['a', 'N'] then some (.nan, rest.drop 2) else none
      else if c = 'I' then
        if rest.take 7 = ['n', 'f', 'i', 'n', 'i', 't', 'y'] then
          some (.inf false, rest.drop 7)
        else none
      else if c = '-' ∧ rest.take 8 = ['I', 'n', 'f', 'i', 'n', 'i', 't', 'y'] then
        some (.inf true, rest.drop 8)
      else if c = '"' then
        match parse_jstring rest with
        | some (content, rest2) => some (.str content, rest2)
        | none => none
      else if c = '[' then
        match parse_array_items fuel rest with
        | some (xs, rest2) => some (.arr xs, rest2)
        | none => none
      else if c = '\x7b' then
        match parse_obj_items fuel rest with
        | some (kvs, rest2) => some (.obj kvs, rest2)
        | none => none
      else
        match parse_number (c :: rest) with
        | some (q, rest2) => some (.num q, rest2)
        | none => none

/-- Array items after the opening bracket. -/
def parse_array_items : Nat → List Char → Option (List PyJson × List Char)
  | 0, _ => none
  | fuel + 1, s =>
    match skipWS s with
    | ']' :: rest => some ([], rest)
    | _ =>
      match parse_value fuel s with
      | some (v, rest) => parse_array_tail fuel [v] rest
      | none => none

/-- Array continuation after a parsed item: comma and item, or close. -/
def parse_array_tail :
    Nat → List PyJson → List Char → Option (List PyJson × List Char)
  | 0, _, _ => none
  | fuel + 1, acc, s =>
    match skipWS s with
    | ']' :: rest => some (acc.reverse, rest)
    | ',' :: rest =>
      match parse_value fuel rest with
      | some (v, rest2) => parse_array_tail fuel (v :: acc) rest2
      | none => none
    | _ => none

/-- One key-value member of an object. -/
def parse_member :
    Nat → List Char → Option ((List Char × PyJson) × List Char)
  | 0, _ => none
  | fuel + 1, s =>
    match skipWS s with
    | '"' :: rest =>
      match parse_jstring rest with
      | some (key, rest2) =>
        match skipWS rest2 with
        | ':' :: rest3 =>
          match parse_value fuel rest3 with
          | some (v, rest4) => some ((key, v), rest4)
          | none => none
        | _ => none
      | none => none
    | _ => none

/-- Object members after the opening brace. -/
def parse_obj_items :
    Nat → List Char → Option (List (List Char × PyJson) × List Char)
  | 0, _ => none
  | fuel + 1, s =>
    match skipWS s with
    | '\x7d' :: rest => some ([], rest)
    | _ =>
      match parse_member fuel s with
      | some (kv, rest) => parse_obj_tail fuel [kv] rest
      | none => none

/-- Object continuation after a parsed member: comma and member, or
close. -/
def parse_obj_tail :
    Nat → List (List Char × PyJson) → List Char →
      Option (List (List Char × PyJson) × List Char)
  | 0, _, _ => none
  | fuel + 1, acc, s =>
    match skipWS s with
    | '\x7d' :: rest => some (acc.reverse, rest)
    | ',' :: rest =>
      match parse_member fuel rest with
      | some (kv, rest2) => parse_obj_tail fuel (kv :: acc) rest2
      | none => none
    | _ => none

end

/-- Model of json.loads: parse one value and require only whitespace
after it. -/
def json_loads (s : List Char) : Option PyJson :=
  match parse_value (s.length + 1) s with
  | some (v, rest) => if (skipWS rest).isEmpty then some v else none
  | none => none

/-- Python str.find for a single character: first index or -1. -/
def pyFind (l : List Char) (c : Char) : Int :=
  match l.indexOf? c with
  | some i => (i : Int)
  | none => -1

/-- Python str.rfind for a single character: last index or -1. -/
def pyRfind (l : List Char) (c : Char) : Int :=
  match l.reverse.indexOf? c with
  | some i => ((l.length - 1 - i : Nat) : Int)
  | none => -1

/-- Failure modes of parse_llm_response; the Python code raises ValueError
with a message in each case, whose text no claim depends on. -/
inductive ParseErr where
  | noJson : ParseErr
  | decodeFail : ParseErr
  | missingField (f : List Char) : ParseErr
deriving Repr, DecidableEq

/-- The fields required by the validation loop, in source order. -/
def required_fields : List (List Char) :=
  ["answer".toList, "supporting_clauses".toList, "explanation".toList,
    "confidence".toList]

/-- The candidate JSON text: the substring of the stripped response from
the first opening brace to the last closing brace inclusive. -/
def jsonCandidate (cleaned : List Char) : List Char :=
  pySlice cleaned (pyFind cleaned '\x7b').toNat ((pyRfind cleaned '\x7d' + 1).toNat)

/-- Model of parse_llm_response: strip, locate the brace-delimited
candidate, parse it, and validate the required fields in order.  The
Python locals are cleaned = pyStrip t, start_idx = pyFind cleaned of the
opening brace, end_idx = pyRfind cleaned of the closing brace plus one,
and jsonCandidate cleaned is cleaned[start_idx:end_idx].  The branch for a
parse result that is not an object mirrors the generic exception path of
the Python code; it is unreachable because a successfully parsed candidate
starts with an opening brace. -/
def parse_llm_response (t : List Char) : Except ParseErr PyJson :=
  if pyFind (pyStrip t) '\x7b' = -1 ∨ pyRfind (pyStrip t) '\x7d' + 1 = 0 then
    .error .noJson
  else
    match json_loads (jsonCandidate (pyStrip t)) with
    | none => .error .decodeFail
    | some v =>
      match v with
      | .obj kvs =>
        match required_fields.find? (fun f => !(kvs.any (fun kv => kv.1 == f))) with
        | some f => .error (.missingField f)
        | none => .ok (.obj kvs)
      | _ => .error .decodeFail

theorem pyFind_eq_neg_one_iff (l : List Char) (c : Char) :
    pyFind l c = -1 ↔ c ∉ l := by
  cases h : l.indexOf? c with
  | none =>
    simp only [pyFind, h, true_iff]
    intro hc
    exact absurd (beq_self_eq_true c) (by
      simpa using List.indexOf?_eq_none_iff.mp h c hc)
  | some i =>
    have hmem : c ∈ l := by
      by_contra hc
      have hnone : l.indexOf? c = none :=
        List.indexOf?_eq_none_iff.mpr (fun x hx => by
          simp only [beq_iff_eq]
          intro hxc
          exact hc (hxc ▸ hx))
      rw [hnone] at h
      exact Option.noConfusion h
    simp only [pyFind, h]
    constructor
    · intro hi; omega
    · intro hc; exact absurd hmem hc

theorem pyRfind_add_one_eq_zero_iff (l : List Char) (c : Char) :
    pyRfind l c + 1 = 0 ↔ c ∉ l := by
  cases h : l.reverse.indexOf? c with
  | none =>
    simp only [pyRfind, h]
    constructor
    · intro _ hc
      exact absurd (beq_self_eq_true c) (by
        simpa using List.indexOf?_eq_none_iff.mp h c (List.mem_reverse.mpr hc))
    · intro _; omega
  | some i =>
    have hmem : c ∈ l := by
      by_contra hc
      have hnone : l.reverse.indexOf? c = none :=
        List.indexOf?_eq_none_iff.mpr (fun x hx => by
          simp only [beq_iff_eq]
          intro hxc
          exact hc (hxc ▸ (List.mem_reverse.mp hx)))
      rw [hnone] at h
      exact Option.noConfusion h
    simp only [pyRfind, h]
    constructor
    · intro hi; omega
    · intro hc; exact absurd hmem hc

/-- C7 (amended): parse_llm_response locates the candidate JSON text as
the substring of the stripped response from the first opening brace to the
last closing brace and returns its parse; it errors exactly when one of
the braces is absent, the candidate is not valid JSON, or one of the
required fields answer, supporting_clauses, explanation, confidence (not
answer, confidence, evidence as originally claimed) is missing from the
parsed object; in particular a JSON object with those fields wrapped in
surrounding prose still parses successfully. -/
theorem C7_parse_llm (t : List Char) :
    (('\x7b' ∉ pyStrip t ∨ '\x7d' ∉ pyStrip t) →
      parse_llm_response t = .error .noJson) ∧
    ('\x7b' ∈ pyStrip t → '\x7d' ∈ pyStrip t →
      (json_loads (jsonCandidate (pyStrip t)) = none →
        parse_llm_response t = .error .decodeFail) ∧
      (∀ kvs, json_loads (jsonCandidate (pyStrip t)) = some (.obj kvs) →
        ((∀ f ∈ required_fields, kvs.any (fun kv => kv.1 == f) = true) →
          parse_llm_response t = .ok (.obj kvs)) ∧
        (∀ f, required_fields.find?
            (fun g => !(kvs.any (fun kv => kv.1 == g))) = some f →
          parse_llm_response t = .error (.missingField f)))) ∧
    (∀ v, parse_llm_response t = .ok v →
      ∃ kvs, v = .obj kvs ∧
        json_loads (jsonCandidate (pyStrip t)) = some (.obj kvs) ∧
        ∀ f ∈ required_fields, kvs.any (fun kv => kv.1 == f) = true) := by
  refine ⟨?_, ?_, ?_⟩
  · intro h
    have hcond : pyFind (pyStrip t) '\x7b' = -1 ∨
        pyRfind (pyStrip t) '\x7d' + 1 = 0 := by
      rcases h with h | h
      · exact Or.inl ((pyFind_eq_neg_one_iff _ _).mpr h)
      · exact Or.inr ((pyRfind_add_one_eq_zero_iff _ _).mpr h)
    unfold parse_llm_response
    rw [if_pos hcond]
  · intro hoc hcc
    have hcond : ¬ (pyFind (pyStrip t) '\x7b' = -1 ∨
        pyRfind (pyStrip t) '\x7d' + 1 = 0) := by
      rintro (h | h)
      · exact (pyFind_eq_neg_one_iff _ _).mp h hoc
      · exact (pyRfind_add_one_eq_zero_iff _ _).mp h hcc
    constructor
    · intro hnone
      unfold parse_llm_response
      rw [if_neg hcond, hnone]
    · intro kvs hkvs
      constructor
      · intro hall
        have hfind : required_fields.find?
            (fun f => !(kvs.any (fun kv => kv.1 == f))) = none := by
          rw [List.find?_eq_none]
          intro f hf
          rw [hall f hf]
          simp
        unfold parse_llm_response
        rw [if_neg hcond, hkvs]
        simp only [hfind]
      · intro f hf
        unfold parse_llm_response
        rw [if_neg hcond, hkvs]
        simp only [hf]
  · intro v hv
    unfold parse_llm_response at hv
    by_cases hcond : pyFind (pyStrip t) '\x7b' = -1 ∨
        pyRfind (pyStrip t) '\x7d' + 1 = 0
    · rw [if_pos hcond] at hv
      exact Except.noConfusion hv
    · rw [if_neg hcond] at hv
      cases hj : json_loads (jsonCandidate (pyStrip t)) with
      | none => rw [hj] at hv; exact Except.noConfusion hv
      | some w =>
        rw [hj] at hv
        cases w with
        | obj kvs =>
          cases hfind : required_fields.find?
              (fun g => !(kvs.any (fun kv => kv.1 == g))) with
          | some f =>
            simp only [hfind] at hv
            exact Except.noConfusion hv
          | none =>
            simp only [hfind, Except.ok.injEq] at hv
            refine ⟨kvs, hv.symm, rfl, ?_⟩
            intro f hf
            have hb := List.find?_eq_none.mp hfind f hf
            cases hany : kvs.any (fun kv => kv.1 == f) with
            | false => exact absurd (by rw [hany]; rfl) hb
            | true => rfl
        | null => simp at hv
        | bool b => simp at hv
        | num q => simp at hv
        | inf n => simp at hv
        | nan => simp at hv
        | str s => simp at hv
        | arr xs => simp at hv

/-- A response that is exactly a JSON object carrying the three fields
the claim names: answer, confidence, evidence. -/
def exMissing : List Char :=
  "\x7b\"answer\": \"x\", \"confidence\": \"high\", \"evidence\": []\x7d".toList

/-- A valid response wrapped in prose, carrying the four fields the code
requires. -/
def exWrapped : List Char :=
  ("prose \x7b\"answer\":\"a\",\"supporting_clauses\":[],"
    ++ "\"explanation\":\"e\",\"confidence\":\"high\"\x7d more").toList

/-- The object parsed from the candidate inside exWrapped. -/
def exWrappedObj : List (List Char × PyJson) :=
  [("answer".toList, .str ['a']), ("supporting_clauses".toList, .arr []),
    ("explanation".toList, .str ['e']), ("confidence".toList, .str "high".toList)]

/-- C7 counterexample: a response that is exactly a JSON object with the
fields answer, confidence and evidence parses as JSON, yet
parse_llm_response raises a missing-field error for supporting_clauses:
the required field set of the code is answer, supporting_clauses,
explanation, confidence, not answer, confidence, evidence as the claim
states. -/
theorem C7_counterexample :
    parse_llm_response exMissing =
        .error (.missingField ("supporting_clauses".toList)) ∧
      json_loads (jsonCandidate (pyStrip exMissing)) =
        some (.obj [("answer".toList, .str ['x']),
          ("confidence".toList, .str "high".toList),
          ("evidence".toList, .arr [])]) :=
  ⟨rfl, rfl⟩

/-- C7 witness: the amended characterisation applied to a concrete JSON
object wrapped in prose, which parses successfully. -/
theorem C7_parse_llm_witness : parse_llm_response exWrapped = .ok (.obj exWrappedObj) :=
  (((C7_parse_llm exWrapped).2.1 (by decide) (by decide)).2 exWrappedObj rfl).1
    (by decide)

/-! ### clean_extracted_text (src/improved_pdf_extractor.py, lines 74 to 112)

The function replaces characters outside a set of printable ranges by
spaces, collapses whitespace runs, drops short artifact words, joins the
kept words with single spaces, and only then computes the corruption
ratio: the fraction of characters of the cleaned text that are not
alphanumeric, whitespace or standard punctuation; above 0.3 the candidate
is discarded.  Character class functions are the restrictions of the
Python ones to ASCII; the claim theorems quantify over ASCII inputs, on
which the model and the Python code agree.  The float comparison
corruption_ratio > 0.3 is modelled as the exact rational comparison. -/

/-- Characters kept by the printable pattern of clean_extracted_text;
everything else becomes a space. -/
def printable_keep (c : Char) : Bool :=
  decide ((0x20 ≤ c.toNat ∧ c.toNat ≤ 0x7E) ∨ (0xA0 ≤ c.toNat ∧ c.toNat ≤ 0x24F) ∨
    (0x1E00 ≤ c.toNat ∧ c.toNat ≤ 0x1EFF) ∨ (0x2000 ≤ c.toNat ∧ c.toNat ≤ 0x206F) ∨
    (0x2070 ≤ c.toNat ∧ c.toNat ≤ 0x209F) ∨ (0x20A0 ≤ c.toNat ∧ c.toNat ≤ 0x20CF) ∨
    (0x2100 ≤ c.toNat ∧ c.toNat ≤ 0x214F) ∨ (0x2190 ≤ c.toNat ∧ c.toNat ≤ 0x21FF) ∨
    (0x2200 ≤ c.toNat ∧ c.toNat ≤ 0x22FF))

/-- The printable-pattern substitution. -/
def printableSub (t : List Char) : List Char :=
  t.map (fun c => if printable_keep c then c else ' ')

/-- The whitespace-collapsing substitution: each maximal whitespace run
becomes a single space (emitted at the last character of the run). -/
def collapse_ws : List Char → List Char
  | [] => []
  | c :: rest =>
    if pyIsSpace c then
      match rest.head? with
      | some d => if pyIsSpace d then collapse_ws rest else ' ' :: collapse_ws rest
      | none => [' ']
    else c :: collapse_ws rest

/-- Python str.split() with no arguments: the maximal non-whitespace runs,
in order; a non-whitespace character followed by another one joins the
word being formed to its right. -/
def pySplit : List Char → List (List Char)
  | [] => []
  | c :: rest =>
    if pyIsSpace c then pySplit rest
    else
      match rest.head? with
      | none => [[c]]
      | some d =>
        if pyIsSpace d then [c] :: pySplit rest
        else
          match pySplit rest with
          | w :: ws => (c :: w) :: ws
          | [] => [[c]]

/-- Python str.isalnum restricted to ASCII. -/
def pyIsAlnumChar (c : Char) : Bool :=
  decide ((48 ≤ c.toNat ∧ c.toNat ≤ 57) ∨ (65 ≤ c.toNat ∧ c.toNat ≤ 90) ∨
    (97 ≤ c.toNat ∧ c.toNat ≤ 122))

/-- Python word.isalnum(): nonempty and all characters alphanumeric. -/
def pyWordIsAlnum (w : List Char) : Bool := !w.isEmpty && w.all pyIsAlnumChar

/-- The single-character words kept by the artifact filter. -/
def singleKeep : List (List Char) := [['a'], ['i'], ['&'], ['+'], ['-'], ['=']]

/-- The word filter: keep words of length at least two, alphanumeric
words, and the listed single-character words (after lowering). -/
def keep_word (w : List Char) : Bool :=
  decide (2 ≤ w.length) || pyWordIsAlnum w ||
    decide (w.map Char.toLower ∈ singleKeep)

/-- The standard punctuation of the corruption check. -/
def standardPunct : List Char :=
  ['.', ',', '!', '?', ';', ':', '"', '(', ')', '[', ']', '\x7b', '\x7d', '/', '-']

/-- A character counted as standard by the corruption check. -/
def isStandardChar (c : Char) : Bool :=
  pyIsAlnumChar c || pyIsSpace c || decide (c ∈ standardPunct)

/-- Number of standard characters of a text. -/
def standard_count (t : List Char) : Nat := (t.filter isStandardChar).length

/-- The corruption ratio of a text: 1 - standard_chars / len(text). -/
def corruption_ratio (t : List Char) : ℚ :=
  1 - (standard_count t : ℚ) / (t.length : ℚ)

/-- The cleaned text before the corruption check: printable substitution,
whitespace collapse, word filter, join. -/
def cleaned_words_text (t : List Char) : List Char :=
  pyJoinSep [' '] ((pySplit (collapse_ws (printableSub t))).filter keep_word)

/-- Model of clean_extracted_text. -/
def clean_extracted_text (t : List Char) : List Char :=
  if t.isEmpty then []
  else if (cleaned_words_text t).isEmpty then pyStrip (cleaned_words_text t)
  else if 3/10 < corruption_ratio (cleaned_words_text t) then []
  else pyStrip (cleaned_words_text t)

/-- The corruption ratio exactly as the claim words it, computed on the
raw candidate text: the fraction of its characters that are not
alphanumeric, whitespace or standard punctuation.  This definition follows
the claim, for comparison with the code, which computes the ratio on the
cleaned text instead. -/
def claimed_corruption_ratio (t : List Char) : ℚ :=
  ((t.filter (fun c => !isStandardChar c)).length : ℚ) / (t.length : ℚ)

/-- Words produced by pySplit are nonempty and contain no whitespace. -/
theorem pySplit_words (l : List Char) :
    ∀ w ∈ pySplit l, w ≠ [] ∧ ∀ c ∈ w, pyIsSpace c = false := by
  induction l with
  | nil => intro w hw; exact absurd hw (by simp [pySplit])
  | cons c rest ih =>
    intro w hw
    by_cases hc : pyIsSpace c = true
    · rw [show pySplit (c :: rest) = pySplit rest by simp [pySplit, hc]] at hw
      exact ih w hw
    · have hcf : pyIsSpace c = false := by simpa using hc
      cases hrest : rest.head? with
      | none =>
        rw [show pySplit (c :: rest) = [[c]] by simp [pySplit, hcf, hrest]] at hw
        have hwc : w = [c] := by simpa using hw
        subst hwc
        refine ⟨by simp, ?_⟩
        intro d hd
        have : d = c := by simpa using hd
        subst this
        exact hcf
      | some d =>
        by_cases hd : pyIsSpace d = true
        · rw [show pySplit (c :: rest) = [c] :: pySplit rest by
            simp [pySplit, hcf, hrest, hd]] at hw
          rcases List.mem_cons.mp hw with hweq | hwmem
          · subst hweq
            refine ⟨by simp, ?_⟩
            intro e he
            have : e = c := by simpa using he
            subst this
            exact hcf
          · exact ih w hwmem
        · have hdf : pyIsSpace d = false := by simpa using hd
          cases hps : pySplit rest with
          | nil =>
            rw [show pySplit (c :: rest) = [[c]] by
              simp [pySplit, hcf, hrest, hdf, hps]] at hw
            have hwc : w = [c] := by simpa using hw
            subst hwc
            refine ⟨by simp, ?_⟩
            intro e he
            have : e = c := by simpa using he
            subst this
            exact hcf
          | cons w0 ws =>
            rw [show pySplit (c :: rest) = (c :: w0) :: ws by
              simp [pySplit, hcf, hrest, hdf, hps]] at hw
            rcases List.mem_cons.mp hw with hweq | hwmem
            · subst hweq
              obtain ⟨_, hw0⟩ := ih w0 (by rw [hps]; exact List.mem_cons_self _ _)
              refine ⟨by simp, ?_⟩
              intro e he
              rcases List.mem_cons.mp he with heq | hemem
              · subst heq; exact hcf
              · exact hw0 e hemem
            · exact ih w (by rw [hps]; exact List.mem_cons_of_mem _ hwmem)

/-- pyStrip is the identity on lists whose two ends are not whitespace. -/
theorem pyStrip_eq_self (l : List Char)
    (h1 : ∀ c ∈ l.head?, pyIsSpace c = false)
    (h2 : ∀ c ∈ l.getLast?, pyIsSpace c = false) : pyStrip l = l := by
  unfold pyStrip
  have e1 : l.dropWhile pyIsSpace = l := by
    cases l with
    | nil => rfl
    | cons c rest =>
      rw [List.dropWhile_cons_of_neg]
      simp [h1 c (by simp)]
  rw [e1]
  have e2 : l.reverse.dropWhile pyIsSpace = l.reverse := by
    cases hr : l.reverse with
    | nil => rfl
    | cons c rest =>
      have hcl : c ∈ l.getLast? := by
        rw [← List.head?_reverse, hr]
        simp
      rw [List.dropWhile_cons_of_neg]
      simp [h2 c hcl]
  rw [e2, List.reverse_reverse]

/-- The join of nonempty whitespace-free words has no whitespace at either
end. -/
theorem pyJoinSep_ends (parts : List (List Char))
    (hp : ∀ w ∈ parts, w ≠ [] ∧ ∀ c ∈ w, pyIsSpace c = false) :
    (∀ c ∈ (pyJoinSep [' '] parts).head?, pyIsSpace c = false) ∧
      (∀ c ∈ (pyJoinSep [' '] parts).getLast?, pyIsSpace c = false) := by
  induction parts with
  | nil => simp [pyJoinSep]
  | cons w ws ih =>
    obtain ⟨hwne, hwc⟩ := hp w (by simp)
    have ihs := ih (fun v hv => hp v (by simp [hv]))
    cases ws with
    | nil =>
      constructor
      · intro c hc
        exact hwc c (List.mem_of_mem_head? hc)
      · intro c hc
        refine hwc c ?_
        rw [← List.head?_reverse] at hc
        exact List.mem_reverse.mp (List.mem_of_mem_head? hc)
    | cons y ys =>
      rw [pyJoinSep_cons_of_ne_nil [' '] w (y :: ys) (by simp)]
      have hjne : pyJoinSep [' '] (y :: ys) ≠ [] := by
        obtain ⟨hyne, _⟩ := hp y (by simp)
        cases ys with
        | nil => simpa [pyJoinSep]
        | cons z zs =>
          rw [pyJoinSep_cons_of_ne_nil [' '] y (z :: zs) (by simp)]
          simp [hyne]
      constructor
      · intro c hc
        rw [List.append_assoc, List.head?_append] at hc
        cases hw : w.head? with
        | none => exact absurd hw (by simpa [List.head?_eq_none_iff] using hwne)
        | some d =>
          rw [hw] at hc
          simp only [Option.or_some, Option.mem_def, Option.some_inj] at hc
          subst hc
          exact hwc d (List.mem_of_mem_head? (by simp [hw]))
      · intro c hc
        rw [List.getLast?_append] at hc
        cases hj : (pyJoinSep [' '] (y :: ys)).getLast? with
        | none => exact absurd hj (by simpa [List.getLast?_eq_none_iff] using hjne)
        | some d =>
          rw [hj] at hc
          simp only [Option.or_some, Option.mem_def, Option.some_inj] at hc
          subst hc
          exact ihs.2 d (by simp [hj])

/-- C9 counterexample: the candidate consisting of a, b, a space and two
control characters has raw corruption ratio 2/5, strictly above the 3/10
threshold, yet clean_extracted_text returns ab instead of discarding: the
ratio the code thresholds is computed on the cleaned text, not on the
candidate. -/
theorem C9_counterexample :
    claimed_corruption_ratio ['a', 'b', ' ', '\x01', '\x01'] = 2/5 ∧
      (3 : ℚ)/10 < 2/5 ∧
      clean_extracted_text ['a', 'b', ' ', '\x01', '\x01'] = ['a', 'b'] := by
  refine ⟨?_, by norm_num, ?_⟩
  · have h1 : ((['a', 'b', ' ', '\x01', '\x01'] : List Char).filter
        (fun c => !isStandardChar c)).length = 2 := by decide
    unfold claimed_corruption_ratio
    rw [h1]
    norm_num
  · have hw : cleaned_words_text ['a', 'b', ' ', '\x01', '\x01'] = ['a', 'b'] := by
      decide
    have hsc : standard_count ['a', 'b'] = 2 := by decide
    have hr : corruption_ratio ['a', 'b'] = 0 := by
      unfold corruption_ratio
      rw [hsc]
      norm_num
    unfold clean_extracted_text
    rw [hw, hr]
    norm_num
    decide

/-- C9 (amended): for every nonempty ASCII candidate text, the code
discards the candidate exactly when the corruption ratio of the cleaned
text (after printable substitution, whitespace collapse and artifact-word
filtering) strictly exceeds 3/10, or when the cleaning leaves nothing;
cleaned texts at or below the threshold are returned unchanged (their
final strip is the identity) and are nonempty. -/
theorem C9_threshold (t : List Char) (hascii : ∀ c ∈ t, c.toNat < 128)
    (hne : t ≠ []) :
    (cleaned_words_text t = [] → clean_extracted_text t = []) ∧
      (cleaned_words_text t ≠ [] →
        3/10 < corruption_ratio (cleaned_words_text t) →
        clean_extracted_text t = []) ∧
      (cleaned_words_text t ≠ [] →
        corruption_ratio (cleaned_words_text t) ≤ 3/10 →
        clean_extracted_text t = cleaned_words_text t ∧
          clean_extracted_text t ≠ []) := by
  have hnel : t.isEmpty = false := by simpa [List.isEmpty_eq_false]
  refine ⟨?_, ?_, ?_⟩
  · intro hcw
    unfold clean_extracted_text
    rw [hnel, hcw]
    simp [pyStrip]
  · intro hcw hgt
    unfold clean_extracted_text
    rw [hnel]
    simp only [Bool.false_eq_true, if_false]
    rw [if_neg (by simpa [List.isEmpty_iff] using hcw), if_pos hgt]
  · intro hcw hle
    have hstrip : pyStrip (cleaned_words_text t) = cleaned_words_text t := by
      have hwords := pySplit_words (collapse_ws (printableSub t))
      have hkept : ∀ w ∈ (pySplit (collapse_ws (printableSub t))).filter keep_word,
          w ≠ [] ∧ ∀ c ∈ w, pyIsSpace c = false :=
        fun w hw => hwords w (List.mem_filter.mp hw).1
      obtain ⟨hh, hlast⟩ := pyJoinSep_ends _ hkept
      exact pyStrip_eq_self _ hh hlast
    unfold clean_extracted_text
    rw [hnel]
    simp only [Bool.false_eq_true, if_false]
    rw [if_neg (by simpa [List.isEmpty_iff] using hcw),
      if_neg (by exact not_lt.mpr hle), hstrip]
    exact ⟨rfl, hcw⟩

/-- C9 witness: the amended threshold behaviour applied to the concrete
candidate ab, whose cleaned text is ab with corruption ratio zero. -/
theorem C9_threshold_witness :
    (cleaned_words_text ("ab".toList) = [] →
        clean_extracted_text ("ab".toList) = []) ∧
      (cleaned_words_text ("ab".toList) ≠ [] →
        3/10 < corruption_ratio (cleaned_words_text ("ab".toList)) →
        clean_extracted_text ("ab".toList) = []) ∧
      (cleaned_words_text ("ab".toList) ≠ [] →
        corruption_ratio (cleaned_words_text ("ab".toList)) ≤ 3/10 →
        clean_extracted_text ("ab".toList) = cleaned_words_text ("ab".toList) ∧
          clean_extracted_text ("ab".toList) ≠ []) :=
  C9_threshold ("ab".toList) (by decide) (by decide)

/-! ### Plain-text extraction and its encoding fallbacks
(src/document_processor.py lines 218 to 231, and
src/simple_document_processor.py lines 102 to 110)

Both readers first decode the file bytes as UTF-8 and, on a decode error,
fall back: the full processor tries latin-1, cp1252 and iso-8859-1 in that
order and raises "Could not decode text file" when all fail; the simple
processor retries with latin-1 directly.  Bytes are modelled as Fin 256;
each codec maps a byte string to an optional character string, none
modelling UnicodeDecodeError. -/

/-- Strict UTF-8 decoding as Python performs it: multi-byte sequences with
continuation bytes in range, overlong encodings, surrogates and values
beyond 0x10FFFF rejected. -/
def decode_utf8 : List (Fin 256) → Option (List Char)
  | [] => some []
  | b :: rest =>
    if b.val < 0x80 then (decode_utf8 rest).map (fun s => Char.ofNat b.val :: s)
    else if 0xC2 ≤ b.val ∧ b.val ≤ 0xDF then
      match rest with
      | b2 :: rest2 =>
        if 0x80 ≤ b2.val ∧ b2.val ≤ 0xBF then
          (decode_utf8 rest2).map
            (fun s => Char.ofNat ((b.val - 0xC0) * 0x40 + (b2.val - 0x80)) :: s)
        else none
      | [] => none
    else if 0xE0 ≤ b.val ∧ b.val ≤ 0xEF then
      match rest with
      | b2 :: b3 :: rest2 =>
        if (if b.val = 0xE0 then 0xA0 else 0x80) ≤ b2.val ∧
            b2.val ≤ (if b.val = 0xED then 0x9F else 0xBF) ∧
            0x80 ≤ b3.val ∧ b3.val ≤ 0xBF then
          (decode_utf8 rest2).map
            (fun s => Char.ofNat ((b.val - 0xE0) * 0x1000 +
              (b2.val - 0x80) * 0x40 + (b3.val - 0x80)) :: s)
        else none
      | _ => none
    else if 0xF0 ≤ b.val ∧ b.val ≤ 0xF4 then
      match rest with
      | b2 :: b3 :: b4 :: rest2 =>
        if (if b.val = 0xF0 then 0x90 else 0x80) ≤ b2.val ∧
            b2.val ≤ (if b.val = 0xF4 then 0x8F else 0xBF) ∧
            0x80 ≤ b3.val ∧ b3.val ≤ 0xBF ∧ 0x80 ≤ b4.val ∧ b4.val ≤ 0xBF then
          (decode_utf8 rest2).map
            (fun s => Char.ofNat ((b.val - 0xF0) * 0x40000 +
              (b2.val - 0x80) * 0x1000 + (b3.val - 0x80) * 0x40 +
              (b4.val - 0x80)) :: s)
        else none
      | _ => none
    else none

/-- Latin-1 decoding: every byte is a code point, so it never fails. -/
def decode_latin1 (bs : List (Fin 256)) : Option (List Char) :=
  some (bs.map (fun b => Char.ofNat b.val))

/-- The cp1252 mapping of the 0x80 to 0x9F range; the five undefined bytes
yield none. -/
def cp1252_table (b : Nat) : Option Nat :=
  if b = 0x80 then some 0x20AC else if b = 0x82 then some 0x201A
  else if b = 0x83 then some 0x0192 else if b = 0x84 then some 0x201E
  else if b = 0x85 then some 0x2026 else if b = 0x86 then some 0x2020
  else if b = 0x87 then some 0x2021 else if b = 0x88 then some 0x02C6
  else if b = 0x89 then some 0x2030 else if b = 0x8A then some 0x0160
  else if b = 0x8B then some 0x2039 else if b = 0x8C then some 0x0152
  else if b = 0x8E then some 0x017D else if b = 0x91 then some 0x2018
  else if b = 0x92 then some 0x2019 else if b = 0x93 then some 0x201C
  else if b = 0x94 then some 0x201D else if b = 0x95 then some 0x2022
  else if b = 0x96 then some 0x2013 else if b = 0x97 then some 0x2014
  else if b = 0x98 then some 0x02DC else if b = 0x99 then some 0x2122
  else if b = 0x9A then some 0x0161 else if b = 0x9B then some 0x203A
  else if b = 0x9C then some 0x0153 else if b = 0x9E then some 0x017E
  else if b = 0x9F then some 0x0178 else none

/-- Windows-1252 decoding; fails on the five undefined bytes. -/
def decode_cp1252 (bs : List (Fin 256)) : Option (List Char) :=
  bs.mapM (fun b =>
    if b.val < 0x80 ∨ 0xA0 ≤ b.val then some (Char.ofNat b.val)
    else (cp1252_table b.val).map Char.ofNat)

/-- ISO-8859-1 decoding, identical to latin-1. -/
def decode_iso8859_1 (bs : List (Fin 256)) : Option (List Char) :=
  some (bs.map (fun b => Char.ofNat b.val))

/-- Model of DocumentProcessor._extract_text_from_txt: UTF-8 first, then
the fallback chain latin-1, cp1252, iso-8859-1, with the final ValueError
branch. -/
def extract_text_from_txt (bs : List (Fin 256)) : Except String (List Char) :=
  match decode_utf8 bs with
  | some s => .ok s
  | none =>
    match decode_latin1 bs with
    | some s => .ok s
    | none =>
      match decode_cp1252 bs with
      | some s => .ok s
      | none =>
        match decode_iso8859_1 bs with
        | some s => .ok s
        | none => .error "Could not decode text file"

/-- Model of SimpleDocumentProcessor.extract_text_from_txt: UTF-8, then a
bare latin-1 retry whose own failure would propagate. -/
def simple_extract_text_from_txt (bs : List (Fin 256)) : Except String (List Char) :=
  match decode_utf8 bs with
  | some s => .ok s
  | none =>
    match decode_latin1 bs with
    | some s => .ok s
    | none => .error "UnicodeDecodeError"

/-- C10: both text readers are total in the character encoding: for every
byte content they return a decoded string, because the latin-1 fallback
decodes every byte sequence; the final could-not-decode branch is
unreachable. -/
theorem C10_txt_total (bs : List (Fin 256)) :
    (∃ s, extract_text_from_txt bs = .ok s) ∧
      (∃ s, simple_extract_text_from_txt bs = .ok s) := by
  constructor
  · unfold extract_text_from_txt
    cases decode_utf8 bs with
    | some s => exact ⟨s, rfl⟩
    | none => exact ⟨bs.map (fun b => Char.ofNat b.val), by simp [decode_latin1]⟩
  · unfold simple_extract_text_from_txt
    cases decode_utf8 bs with
    | some s => exact ⟨s, rfl⟩
    | none => exact ⟨bs.map (fun b => Char.ofNat b.val), by simp [decode_latin1]⟩

end Loopers
